import Mathlib

/-!
# Verification of the dc.graph.js layout reconciliation and constraint pipeline

This development is a shallow embedding of the core of `src/src/place_ports.js`
(the `dc_graph.diagram` redraw pipeline and the `dc_graph.place_ports` port
placement engine), together with theorems settling the testable properties of
the specification.

Modelling conventions:
* JS objects used as string-keyed dictionaries (`_nodes`, `_edges`) become
  association lists `KMap α = List (String × α)`.
* Object identity (`===`) is modelled by tagging each wrapper with an
  allocation id (`id : Nat`, drawn from a monotone counter): two wrappers are
  "the same object" across redraws iff they carry the same id.
* Node/edge records are caller data; their JSON serialization comparison
  (`JSON.stringify` equality on `nodes1.map(original)`) is modelled as plain
  structural equality of the record lists, records being plain serializable
  data.
* Caller-supplied keys are unique per the data contract (each record "has a
  unique key"), which justifies value semantics for the wrapper lists.
* Real-valued geometry (angles, radii) uses `ℝ`; those definitions are
  noncomputable but fully defined, and theorems evaluate them by lemmas.
-/

namespace DCGraph

/-! ## String-keyed maps (JS dictionary objects) -/

/-- Association-list map modelling a JS object used as a dictionary. -/
abbrev KMap (α : Type) := List (String × α)

/-- `m[k]`: first binding for `k`, if any. -/
def mget {α : Type} : KMap α → String → Option α
  | [], _ => none
  | kv :: m, k => if kv.1 = k then some kv.2 else mget m k

/-- `m[k] = v`: replace the (first) binding for `k` in place, or append a new
one.  Maps built by `mput` never carry duplicate keys, so this is the JS
assignment. -/
def mput {α : Type} : KMap α → String → α → KMap α
  | [], k, v => [(k, v)]
  | kv :: m, k, v => if kv.1 = k then (k, v) :: m else kv :: mput m k v

/-- `for(k in m) if(!keep[k]) delete m[k]`: keep only the bindings whose key
is in `keep`. -/
def msweep {α : Type} (m : KMap α) (keep : List String) : KMap α :=
  m.filter (fun kv => decide (kv.1 ∈ keep))

/-! ## Data model: records and internal wrappers -/

/-- A caller-owned node record (a crossfilter `{key, value}` pair flattened):
`key` is the unique node key (`nodeKeyAccessor` default `kv.key`); `x`,`y` are
the raw record's own coordinate fields read by `wrap_node` for fixed nodes;
`payload` stands for all remaining serializable attributes. -/
structure NodeRecord where
  key : String
  x : Option ℚ := none
  y : Option ℚ := none
  payload : String := ""
deriving DecidableEq, Repr

/-- A caller-owned edge record: `key` (`edgeKeyAccessor` default `kv.key`),
`sourcename`/`targetname` (the default `sourceAccessor`/`targetAccessor` read
`kv.value.sourcename`/`kv.value.targetname`), `notLayout` (read by the default
`edgeIsLayoutAccessor`), `payload` for remaining attributes. -/
structure EdgeRecord where
  key : String
  sourcename : String
  targetname : String
  notLayout : Bool := false
  payload : String := ""
deriving DecidableEq, Repr

/-- The long-lived internal node wrapper kept in `_nodes`.  `id` models JS
object identity (allocation tag); the other fields are exactly the fields
`wrap_node` and the layout engine write: `orig`, `index`, `x`, `y`, `fixed`. -/
structure NodeWrapper where
  id : Nat
  orig : NodeRecord
  index : Nat
  x : Option ℚ := none
  y : Option ℚ := none
  fixed : Bool := false
deriving DecidableEq, Repr

/-- The long-lived internal edge wrapper kept in `_edges`.  `source`/`target`
hold the looked-up node wrappers (`undefined` = `none` when the endpoint key is
missing); `parallel` is assigned by the parallel-edge pass. -/
structure EdgeWrapper where
  id : Nat
  orig : EdgeRecord
  source : Option NodeWrapper := none
  target : Option NodeWrapper := none
  parallel : Option Nat := none
deriving DecidableEq, Repr

/-- The diagram options consulted by the reconciliation part of `redraw`:
`nodeFixedAccessor` (default null), `layoutUnchanged` (default false),
`parallelEdgeOffset` (default 5). -/
structure Config where
  nodeFixedAccessor : Option (NodeRecord → Option (ℚ × ℚ)) := none
  layoutUnchanged : Bool := false
  parallelEdgeOffset : ℚ := 5

/-- The persistent diagram state surviving across redraws: the `_nodes` and
`_edges` maps, the allocation counter for object identities, and the
`_nodes_snapshot` / `_edges_snapshot` strings (modelled as the serialized
record lists). -/
structure ReconState where
  nodes : KMap NodeWrapper := []
  edges : KMap EdgeWrapper := []
  nextId : Nat := 0
  nodesSnapshot : Option (List NodeRecord) := none
  edgesSnapshot : Option (List EdgeRecord) := none

/-! ## `wrap_node` / `wrap_edge` (place_ports.js lines 628-656) -/

/-- `wrap_node(v, i)`: look up or create the wrapper for `v`'s key, set
`orig` and `index`, resolve the fixed flag.  When the fixed accessor yields a
truthy value, `x`/`y` are overwritten with the raw record's own `x`/`y`
(`v1.x = v.x; v1.y = v.y`) — the accessor's coordinate payload is discarded. -/
def wrap_node (fa : Option (NodeRecord → Option (ℚ × ℚ))) (m : KMap NodeWrapper)
    (nid : Nat) (v : NodeRecord) (i : Nat) : KMap NodeWrapper × Nat × NodeWrapper :=
  let alloc : NodeWrapper × Nat :=
    match mget m v.key with
    | some w => (w, nid)
    | none => ({ id := nid, orig := v, index := i }, nid + 1)
  let w1 : NodeWrapper := { alloc.1 with orig := v, index := i }
  let fixed : Option (ℚ × ℚ) :=
    match fa with
    | some f => f v
    | none => none
  let w2 : NodeWrapper :=
    match fixed with
    | some _ => { w1 with x := v.x, y := v.y, fixed := true }
    | none => { w1 with fixed := false }
  (mput m v.key w2, alloc.2, w2)

/-- `nodes.map(wrap_node)` together with the `keep_node` bookkeeping: returns
the updated `_nodes` map, the allocation counter, the list of kept keys and the
wrapper list `nodes1`.  `i` is the running array index. -/
def wrap_nodes (fa : Option (NodeRecord → Option (ℚ × ℚ))) (m : KMap NodeWrapper)
    (nid : Nat) (i : Nat) :
    List NodeRecord → KMap NodeWrapper × Nat × List String × List NodeWrapper
  | [] => (m, nid, [], [])
  | v :: vs =>
    let step := wrap_node fa m nid v i
    let rest := wrap_nodes fa step.1 step.2.1 (i + 1) vs
    (rest.1, rest.2.1, v.key :: rest.2.2.1, step.2.2 :: rest.2.2.2)

/-- `wrap_edge(e)`: look up or create the wrapper for `e`'s key, set `orig`
and resolve `source`/`target` by key lookup in `_nodes` (yielding `undefined`
= `none` for missing endpoints). -/
def wrap_edge (nm : KMap NodeWrapper) (m : KMap EdgeWrapper) (nid : Nat)
    (e : EdgeRecord) : KMap EdgeWrapper × Nat × EdgeWrapper :=
  let alloc : EdgeWrapper × Nat :=
    match mget m e.key with
    | some w => (w, nid)
    | none => ({ id := nid, orig := e }, nid + 1)
  let w1 : EdgeWrapper :=
    { alloc.1 with orig := e, source := mget nm e.sourcename, target := mget nm e.targetname }
  (mput m e.key w1, alloc.2, w1)

/-- `edges.map(wrap_edge)` with the `keep_edge` bookkeeping. -/
def wrap_edges (nm : KMap NodeWrapper) (m : KMap EdgeWrapper) (nid : Nat) :
    List EdgeRecord → KMap EdgeWrapper × Nat × List String × List EdgeWrapper
  | [] => (m, nid, [], [])
  | e :: es =>
    let step := wrap_edge nm m nid e
    let rest := wrap_edges nm step.1 step.2.1 es
    (rest.1, rest.2.1, e.key :: rest.2.2.1, step.2.2 :: rest.2.2.2)

/-! ## Constraints and their translation (redraw lines 765-787, 809-855) -/

/-- A declarative constraint as supplied by the caller's `constrain` function,
referencing nodes by key: one of alignment (`c.type === 'alignment'`), circle
(`c.type === 'circle'`), ordering (`c.type === 'ordering'`), or an untyped
axis/gap constraint (the `else if(c.axis)` branch). -/
inductive Constraint where
  | alignment (axis : String) (offsets : List (String × ℚ))
  | circle (nodes : List String) (distance : Option ℚ)
  | ordering (axis : String) (g : ℚ) (nodes : List String) (ordkey : NodeRecord → Int)
  | gap (axis : String) (left right : String) (g : ℚ)

/-- A constraint after the key→index rewriting of lines 769-787 (ordering
constraints are untouched there and still reference keys). -/
inductive XConstraint where
  | alignment (axis : String) (offsets : List (Nat × ℚ))
  | circle (nodes : List Nat) (distance : Option ℚ)
  | ordering (axis : String) (g : ℚ) (nodes : List String) (ordkey : NodeRecord → Int)
  | gap (axis : String) (left right : Nat) (g : ℚ)

/-- `_nodes[k].index`.  The source throws (a ConfigurationError, spec §7) when
`k` is missing from `_nodes`; the claims below only instantiate this with
present keys, where the `getD 0` default is never exercised. -/
def getIdx (nm : KMap NodeWrapper) (k : String) : Nat :=
  ((mget nm k).map (·.index)).getD 0

/-- Lines 769-787: translate references from names to indices. -/
def translate_constraint (nm : KMap NodeWrapper) : Constraint → XConstraint
  | .alignment axis offsets => .alignment axis (offsets.map (fun o => (getIdx nm o.1, o.2)))
  | .circle ks d => .circle (ks.map (getIdx nm)) d
  | .ordering axis g ks f => .ordering axis g ks f
  | .gap axis l r g => .gap axis (getIdx nm l) (getIdx nm r) g

def isCircle : XConstraint → Bool
  | .circle _ _ => true
  | _ => false

def isOrdering : XConstraint → Bool
  | .ordering _ _ _ _ => true
  | _ => false

/-- Lines 813-815: `constraints = constraints.filter(c => c.type !== 'circle')`. -/
def drop_circles (cs : List XConstraint) : List XConstraint :=
  cs.filter (fun c => !(isCircle c))

/-- Line 817: `R = (c.distance || _chart.baseLength()*4) / (2*Math.sin(Math.PI/c.nodes.length))`.
JS `||` falls back to the default when `distance` is absent *or* equal to `0`
(a falsy value). -/
noncomputable def circleR (distance : Option ℚ) (baseLength : ℚ) (n : ℕ) : ℝ :=
  let d : ℚ :=
    match distance with
    | some x => if x = 0 then baseLength * 4 else x
    | none => baseLength * 4
  (d : ℝ) / (2 * Real.sin (Real.pi / n))

/-- The ring-radius formula exactly as the claim words it: "the constraint's
distance, or 4×baseLength when absent" — kept separate from `circleR` (the
code's formula) so the two can be compared. -/
noncomputable def circleR_claim (distance : Option ℚ) (baseLength : ℚ) (n : ℕ) : ℝ :=
  ((distance.getD (baseLength * 4) : ℚ) : ℝ) / (2 * Real.sin (Real.pi / n))

/-- A synthetic link produced for a circle constraint, carrying its own
internal distance (`{internal: e}` with `e.internal.distance`). -/
structure WheelLink where
  sourcename : String
  targetname : String
  distance : ℝ

/-- Modelled from the spec: `dc_graph.wheel_edges` is code of this repository
that is not under `src/` (only its call site at line 822 is).  Per spec §4.2
and the glossary it generates a closed cycle of synthetic links connecting
consecutive nodes around the ring, with the node ordering given explicitly,
each link carrying its own internal distance (the ring chord length). -/
noncomputable def wheel_edges (namef : ℕ → String) (indices : List ℕ) (r : ℝ) :
    List WheelLink :=
  (indices.zip (indices.rotate 1)).map fun p =>
    { sourcename := namef p.1, targetname := namef p.2,
      distance := 2 * r * Real.sin (Real.pi / indices.length) }

/-- An entry of the link set handed to the layout engine: either a real edge
wrapper or a synthetic wheel link resolved to node wrappers (lines 822-828). -/
inductive LayoutEdge where
  | regular (e : EdgeWrapper)
  | wheel (w : WheelLink) (source target : Option NodeWrapper)

/-- Lines 810-812, 816-830: for each `type === 'circle'` constraint, compute
the ring radius and synthesize wheel links resolved through `_nodes`. -/
noncomputable def circle_wheels (baseLength : ℚ) (nodes1 : List NodeWrapper)
    (nm : KMap NodeWrapper) (cs : List XConstraint) : List LayoutEdge :=
  ((cs.filter (fun c => isCircle c)).map (fun c =>
    match c with
    | .circle ks d =>
      let r := circleR d baseLength ks.length
      let namef : ℕ → String := fun i => ((nodes1.get? i).map (·.orig.key)).getD ""
      (wheel_edges namef ks r).map
        (fun w => LayoutEdge.wheel w (mget nm w.sourcename) (mget nm w.targetname))
    | _ => [])).flatten

/-- Line 804: `edges1.filter(param(_chart.edgeIsLayoutAccessor()))` with the
default accessor `kv => !kv.value.notLayout`. -/
def isLayoutEdge (e : EdgeWrapper) : Bool :=
  !e.orig.notLayout

/-- Lines 804, 829: the link set given to the engine — layout edges plus the
synthetic wheel links appended by the circle translation. -/
noncomputable def layout_edges (baseLength : ℚ) (nodes1 : List NodeWrapper)
    (nm : KMap NodeWrapper) (edges1 : List EdgeWrapper) (cs : List XConstraint) :
    List LayoutEdge :=
  (edges1.filter isLayoutEdge).map LayoutEdge.regular ++ circle_wheels baseLength nodes1 nm cs

def ins_by {α : Type} (f : α → Int) (a : α) : List α → List α
  | [] => [a]
  | b :: l => if f a ≤ f b then a :: b :: l else b :: ins_by f a l

/-- Models `crossfilter.quicksort.by(accessor)`: a comparison sort returning a
permutation of the input ordered by the accessor.  (Quicksort is not stable;
no claim below depends on the relative order of equal keys.) -/
def sort_by {α : Type} (f : α → Int) : List α → List α
  | [] => []
  | a :: l => ins_by f a (sort_by f l)

/-- Lines 842-854: walk the sorted nodes, emitting one gap constraint per
adjacent pair (`left.index`, `right.index`, axis, gap). -/
def gap_chain (axis : String) (g : ℚ) : List NodeWrapper → List XConstraint
  | [] => []
  | [_] => []
  | l :: r :: rest => .gap axis l.index r.index g :: gap_chain axis g (r :: rest)

/-- `c.nodes.map(function(n) { return _nodes[n]; })` — a missing key would
make the source throw (ConfigurationError, spec §7); the model keeps the
present ones. -/
def lookupNodes (nm : KMap NodeWrapper) (ks : List String) : List NodeWrapper :=
  ks.filterMap (mget nm)

/-- Lines 832-855: remove `type === 'ordering'` constraints and append, for
each of them, the chain of pairwise gap constraints over its key-sorted
nodes. -/
def ordering_stage (nm : KMap NodeWrapper) (cs : List XConstraint) : List XConstraint :=
  let ordered := cs.filter (fun c => isOrdering c)
  let rest := cs.filter (fun c => !(isOrdering c))
  rest ++ (ordered.map (fun c =>
    match c with
    | .ordering axis g ks f => gap_chain axis g (sort_by (fun w => f w.orig) (lookupNodes nm ks))
    | _ => [])).flatten

/-! ## Parallel-edge indexing (redraw lines 682-694) -/

/-- The unordered endpoint pair
`(min(e.source.index, e.target.index), max(...))`.  Only applied to `edges1`,
whose endpoints are both present. -/
def pairKey (e : EdgeWrapper) : ℕ × ℕ :=
  let si := (e.source.map (·.index)).getD 0
  let ti := (e.target.map (·.index)).getD 0
  (min si ti, max si ti)

/-- `e.parallel = em[min][max]++`, threading the counting matrix `em` as a
function from index pairs to counts. -/
def assign_parallel_go (cnt : ℕ × ℕ → ℕ) : List EdgeWrapper → List EdgeWrapper
  | [] => []
  | e :: es =>
    let k := pairKey e
    { e with parallel := some (cnt k) } ::
      assign_parallel_go (fun k' => if k' = k then cnt k + 1 else cnt k') es

/-- Lines 682-694 with the zero-initialized matrix. -/
def assign_parallel (es : List EdgeWrapper) : List EdgeWrapper :=
  assign_parallel_go (fun _ => 0) es

/-! ## The redraw reconciliation pipeline (lines 603-694, 767-787, 809-859) -/

/-- The per-redraw outputs of the reconciliation and translation phases. -/
structure RedrawOut where
  nodes1 : List NodeWrapper
  edges1 : List EdgeWrapper
  skipLayout : Bool
  engineStarted : Bool
  constraints : List XConstraint

/-- Lines 657-665 for nodes: `nodes.map(wrap_node)` followed by the
`keep_node` sweep of `_nodes`.  Returns the swept map, the allocation
counter, and `nodes1`. -/
def reconcile_nodes (cfg : Config) (st : ReconState) (ns : List NodeRecord) :
    KMap NodeWrapper × Nat × List NodeWrapper :=
  let wn := wrap_nodes cfg.nodeFixedAccessor st.nodes st.nextId 0 ns
  (msweep wn.1 wn.2.2.1, wn.2.1, wn.2.2.2)

/-- Lines 663-668 for edges.  Faithful to the source: at the sweep (lines
663-665) `keep_edge` is still the empty object — `wrap_edge`, which populates
it, only runs at line 666 — so the edge sweep deletes every binding of
`_edges` before `edges.map(wrap_edge)` rebuilds the current ones.  Returns the
rebuilt map, the allocation counter, and the filtered `edges1`. -/
def reconcile_edges (nm2 : KMap NodeWrapper) (st : ReconState) (nid1 : Nat)
    (es : List EdgeRecord) : KMap EdgeWrapper × Nat × List EdgeWrapper :=
  let keep_edge : List String := []
  let we := wrap_edges nm2 (msweep st.edges keep_edge) nid1 es
  (we.1, we.2.1, we.2.2.2.filter (fun e => e.source.isSome && e.target.isSome))

/-- The reconciliation part of `_chart.redraw()` in source order: wrap nodes
(line 658), sweep both persistent maps (660-665), wrap and filter edges
(666-668), snapshot comparison (670-680), parallel-edge marking (682-694),
key→index constraint translation (769-787), circle-constraint removal
(813-815) and ordering-constraint reduction (833-855), and the skip fast path
decision (856-859). -/
def redraw (cfg : Config) (st : ReconState) (ns : List NodeRecord) (es : List EdgeRecord)
    (cons : List Constraint) : ReconState × RedrawOut :=
  let rn := reconcile_nodes cfg st ns
  let nm2 := rn.1
  let nid1 := rn.2.1
  let nodes1 := rn.2.2
  let re := reconcile_edges nm2 st nid1 es
  let em2 := re.1
  let nid2 := re.2.1
  let edges1 := re.2.2
  let snap :=
    if cfg.layoutUnchanged then
      (false, st.nodesSnapshot, st.edgesSnapshot)
    else
      let nodesSnapshot := nodes1.map (·.orig)
      let edgesSnapshot := edges1.map (·.orig)
      (decide (st.nodesSnapshot = some nodesSnapshot) &&
         decide (st.edgesSnapshot = some edgesSnapshot),
       some nodesSnapshot, some edgesSnapshot)
  let edges2 := if cfg.parallelEdgeOffset ≠ 0 then assign_parallel edges1 else edges1
  let xcs := cons.map (translate_constraint nm2)
  let cs2 := ordering_stage nm2 (drop_circles xcs)
  let skip := snap.1
  ({ nodes := nm2, edges := em2, nextId := nid2,
     nodesSnapshot := snap.2.1, edgesSnapshot := snap.2.2 },
   { nodes1 := nodes1, edges1 := edges2, skipLayout := skip,
     engineStarted := !skip, constraints := cs2 })

/-- The layout engine writing positions into the node wrappers between
redraws (its `tick`/`end` effect on `nodes1`, which aliases the `_nodes`
entries), or a drag doing the same: an arbitrary per-key position update. -/
def engine_update (f : String → Option (ℚ × ℚ)) (st : ReconState) : ReconState :=
  { st with nodes := st.nodes.map (fun kv =>
      match f kv.1 with
      | some p => (kv.1, { kv.2 with x := some p.1, y := some p.2 })
      | none => kv) }

/-! ## Layout driver completion signalling (lines 790-799, 856-869) -/

inductive DriverEvent where
  | draw
  | endSignal
deriving DecidableEq, Repr

/-- The `_d3cola.on('tick', ...)` handler (lines 790-799): draw when
`showLayoutSteps`; when a nonzero `timeLimit` is exceeded, stop the engine and
fire `end`.  Returns the emitted events and whether the engine was stopped. -/
def tick_handler (showSteps : Bool) (timeLimit elapsed : ℕ) : List DriverEvent × Bool :=
  let draws := if showSteps then [DriverEvent.draw] else []
  if timeLimit ≠ 0 ∧ elapsed > timeLimit then (draws ++ [DriverEvent.endSignal], true)
  else (draws, false)

/-- Modelled from the spec: the external layout engine (out of scope, §1/§6)
invokes the tick callback once per iteration and the end callback exactly once
on natural convergence; after `stop()` it invokes no further callbacks.  A run
is abstracted as the list of elapsed wall-clock times observed at its ticks;
the empty suffix means natural convergence, which triggers the
`.on('end', ...)` handler of lines 865-869. -/
def engine_run (showSteps : Bool) (timeLimit : ℕ) : List ℕ → List DriverEvent
  | [] => (if !showSteps then [DriverEvent.draw] else []) ++ [DriverEvent.endSignal]
  | t :: ts =>
    let h := tick_handler showSteps timeLimit t
    if h.2 then h.1 else h.1 ++ engine_run showSteps timeLimit ts

/-- One redraw cycle's driver events: the skip fast path (lines 856-859) fires
`end` immediately without starting the engine; otherwise the engine is started
and runs to cancellation or convergence (lines 860-869). -/
def run_cycle (skip showSteps : Bool) (timeLimit : ℕ) (ticks : List ℕ) : List DriverEvent :=
  if skip then [DriverEvent.endSignal] else engine_run showSteps timeLimit ticks

/-! ## Angle arithmetic

`normalize_angle`, `normalize_angle_delta` and `between_angles` are code of
this repository that is not under `src/` (place_ports.js only calls them);
they are modelled from the spec. -/

/-- Modelled from the spec: `normalize_angle` is repository code missing from
`src/`.  Spec §4.3: "a canonical normalization to `(−π, π]`" — subtract the
unique integer multiple of `2π` landing the angle in that interval. -/
noncomputable def normalize_angle (θ : ℝ) : ℝ :=
  θ - 2 * Real.pi * ⌈(θ - Real.pi) / (2 * Real.pi)⌉

/-- Modelled from the spec: `normalize_angle_delta` is repository code missing
from `src/`.  Spec §4.3: "a signed delta function for comparing two angles
that accounts for wraparound" — the same canonical representative. -/
noncomputable def normalize_angle_delta (θ : ℝ) : ℝ :=
  normalize_angle θ

/-- Modelled from the spec: `between_angles` is repository code missing from
`src/`.  Spec §3: a port's `bounds` pair `[a, b]` restricts valid angles — `θ`
is between `a` and `b` when its normalized offset from `a` lies within the
normalized width of the arc from `a` to `b`. -/
noncomputable def between_angles (θ a b : ℝ) : Prop :=
  0 ≤ normalize_angle (θ - a) ∧ normalize_angle (θ - a) ≤ normalize_angle (b - a)

open Classical in
/-- Lines 45-51 (`clip_angle`): pick whichever of `a`, `b` has the smaller
absolute normalized angular distance to `theta`. -/
noncomputable def clip_angle (θ a b : ℝ) : ℝ :=
  if |normalize_angle (θ - a)| < |normalize_angle (θ - b)| then a else b

/-! ## The port placement engine (`dc_graph.place_ports`, lines 17-115) -/

/-- A laid-out node as seen by `place_ports`: its key and its `cola`
position (`n.cola.x`, `n.cola.y`). -/
structure PNode where
  key : String
  cx : ℝ
  cy : ℝ

/-- An edge incident to a port, with resolved endpoint nodes.  The source
compares `e.source !== n` by object identity; endpoint nodes come from the
single node map, where identity coincides with key equality. -/
structure PEdge where
  source : PNode
  target : PNode

/-- The value stored into `p.vec` at lines 59-63: either the averaged
direction of the incident edges, or — through the no-edge branch
`p.theta || undefined` — the preset theta number itself, with JS `||` turning
a preset theta of `0` into `undefined`. -/
inductive VecVal where
  | avg (dx dy : ℝ)
  | fromTheta (t : ℝ)

/-- A port: identity tag `pid`, optional preset direction `theta`, optional
`bounds` pair, whether it is a specified port (`p.orig`, which gates the
bounds lookup), its incident edges, and the computed `p.vec`. -/
structure Port where
  pid : ℕ
  theta : Option ℝ := none
  bounds : Option (ℝ × ℝ) := none
  hasOrig : Bool := false
  edges : List PEdge := []
  vecField : Option VecVal := none

/-- Lines 27-33 (`norm`): scale a vector by the reciprocal of its
hypotenuse. -/
noncomputable def normv (dx dy : ℝ) : ℝ × ℝ :=
  let c := Real.sqrt (dx ^ 2 + dy ^ 2)
  (dx / c, dy / c)

/-- Lines 34-40 (`vec`): unit direction of `e` from the viewpoint of node `n`
(sign flipped when `n` is not the edge's source). -/
noncomputable def vec (n : PNode) (e : PEdge) : ℝ × ℝ :=
  let dy := e.target.cy - e.source.cy
  let dx := e.target.cx - e.source.cx
  if e.source.key ≠ n.key then normv (-dx) (-dy) else normv dx dy

/-- Lines 57-69: store the average incident direction in `p.vec` (or fall
back to the preset theta / undefined), then normalize declared bounds for
specified ports. -/
noncomputable def compute_vec (n : PNode) (p : Port) : Port :=
  let angs := (p.edges.map (vec n))
  let v : Option VecVal :=
    if p.edges.length ≠ 0 then
      some (.avg ((angs.map Prod.fst).sum / angs.length) ((angs.map Prod.snd).sum / angs.length))
    else
      match p.theta with
      | some t => if t = 0 then none else some (.fromTheta t)
      | none => none
  let p1 := { p with vecField := v }
  if p1.hasOrig then
    match p1.bounds with
    | some ab => { p1 with bounds := some (normalize_angle ab.1, normalize_angle ab.2) }
    | none => p1
  else p1

open Classical in
/-- Lines 70-78: partition the ports into `(inside, outside, unplaced)` —
`unplaced` when `p.theta === undefined`, `outside` when bounds exist and the
theta is not between them, `inside` otherwise.  Order is preserved. -/
noncomputable def partition_ports : List Port → List Port × List Port × List Port
  | [] => ([], [], [])
  | p :: ps =>
    let rest := partition_ports ps
    match p.theta with
    | none => (rest.1, rest.2.1, p :: rest.2.2)
    | some th =>
      match p.bounds with
      | some ab =>
        if ¬ between_angles th ab.1 ab.2 then (rest.1, p :: rest.2.1, rest.2.2)
        else (p :: rest.1, rest.2.1, rest.2.2)
      | none => (p :: rest.1, rest.2.1, rest.2.2)

/-- Lines 81-84: clip each outside port's theta to the angularly closer bound
and push it onto `inside`.  (An outside port always carries a theta and a
bounds pair — see `partition_ports` — so the `getD` defaults are never
exercised.) -/
noncomputable def clip_outside (inside outside : List Port) : List Port :=
  inside ++ outside.map (fun p =>
    { p with
      theta :=
        some (clip_angle (p.theta.getD 0) (p.bounds.getD (0, 0)).1 (p.bounds.getD (0, 0)).2) })

/-- Lines 85-87: `inside.sort(d3.ascending by theta)` as an insertion sort. -/
noncomputable def ins_theta (a : Port) : List Port → List Port
  | [] => [a]
  | b :: l => if a.theta.getD 0 ≤ b.theta.getD 0 then a :: b :: l else b :: ins_theta a l

noncomputable def sort_theta : List Port → List Port
  | [] => []
  | a :: l => ins_theta a (sort_theta l)

/-- Lines 89-99: give each unplaced port a random theta within its bounds (or
the full circle `[−π, π]`); `rand` is the oracle for `Math.random()`, indexed
by the port's position in the unplaced list. -/
noncomputable def place_unplaced (rand : ℕ → ℝ) (ups : List Port) : List Port :=
  (ups.zip (List.range ups.length)).map (fun pi =>
    let lh : ℝ × ℝ :=
      match pi.1.bounds with
      | some ab => ab
      | none => (-Real.pi, Real.pi)
    { pi.1 with
      theta :=
        some (normalize_angle (lh.1 + rand pi.2 * normalize_angle_delta (lh.2 - lh.1))) })

/-- Lines 53-99 for a single node `n` and its assembled port list: compute
vecs and bounds, partition, clip outside ports into `inside`, sort `inside`
by theta, randomly place the unplaced.  Returns the final
`(inside, unplaced)` port groups, which together carry every port's final
theta. -/
noncomputable def place_node_ports (n : PNode) (nports : List Port) (rand : ℕ → ℝ) :
    List Port × List Port :=
  let ps := nports.map (compute_vec n)
  let part := partition_ports ps
  (sort_theta (clip_outside part.1 part.2.1), place_unplaced rand part.2.2)

/-- The node of the port scenario, at cola position (0, 0). -/
noncomputable def exPNodeN : PNode := ⟨"n", 0, 0⟩

/-- The far endpoint of the scenario's single edge, at (1, 0). -/
noncomputable def exPNodeM : PNode := ⟨"m", 1, 0⟩

/-- A port of node `"n"` with one incident edge `n → m` and no preset
theta. -/
noncomputable def exPortP : Port :=
  { pid := 0, edges := [⟨exPNodeN, exPNodeM⟩] }

/-- A port with preset theta `π` and bounds `[0, π/2]` and no incident
edges. -/
noncomputable def exPortQ : Port :=
  { pid := 0, theta := some Real.pi, bounds := some (0, Real.pi / 2) }

/-! ## Concrete scenario data -/

/-- Number of completion (`end`) signals in a driver event trace. -/
def endCount (evs : List DriverEvent) : ℕ :=
  evs.count DriverEvent.endSignal

/-- A diagram with all options at their defaults (no fixed accessor,
`layoutUnchanged` false, `parallelEdgeOffset` 5). -/
def exCfg : Config := {}

def exNodeA : NodeRecord := { key := "A" }

def exNodeB : NodeRecord := { key := "B" }

def exNodeC : NodeRecord := { key := "C" }

def exEdgeAB1 : EdgeRecord := { key := "e1", sourcename := "A", targetname := "B" }

def exEdgeAB2 : EdgeRecord := { key := "e2", sourcename := "A", targetname := "B" }

def exEdgeBC : EdgeRecord := { key := "e3", sourcename := "B", targetname := "C" }

/-- First redraw of the two-cycle identity scenario: nodes `A`, `B` and the
single edge `e1`. -/
def exRedraw1 : ReconState × RedrawOut :=
  redraw exCfg {} [exNodeA, exNodeB] [exEdgeAB1] []

/-- Second redraw over byte-identical records. -/
def exRedraw2 : ReconState × RedrawOut :=
  redraw exCfg exRedraw1.1 [exNodeA, exNodeB] [exEdgeAB1] []

/-- The parallel-edge scenario: nodes `{A,B,C}`, edges `A→B`, `A→B`
(duplicate), `B→C`. -/
def exRedrawParallel : ReconState × RedrawOut :=
  redraw exCfg {} [exNodeA, exNodeB, exNodeC] [exEdgeAB1, exEdgeAB2, exEdgeBC] []

/-- The number of earlier edges sharing `e`'s unordered endpoint pair. -/
def countPair (pre : List EdgeWrapper) (e : EdgeWrapper) : ℕ :=
  (pre.filter (fun e' => decide (pairKey e' = pairKey e))).length

/-- The claim's description of parallel indexing, stated independently of the
counting matrix: in encounter order, each edge's `parallel` is the number of
previously seen edges between the same unordered endpoint pair (so the N
parallel edges of a pair receive exactly 0, 1, …, N−1). -/
def parallel_claim (pre : List EdgeWrapper) : List EdgeWrapper → List EdgeWrapper
  | [] => []
  | e :: es => { e with parallel := some (countPair pre e) } :: parallel_claim (pre ++ [e]) es

def exNodeLa : NodeRecord := { key := "a" }

def exNodeLb : NodeRecord := { key := "b" }

def exNodeLc : NodeRecord := { key := "c" }

def exNodeLd : NodeRecord := { key := "d" }

/-- The ordering key for the ordering-constraint scenario: sorts `a < b < c`. -/
def exOrdKey : NodeRecord → Int :=
  fun r => if r.key = "a" then 1 else if r.key = "b" then 2 else 3

/-- The ordering-constraint scenario: nodes `[a, b, c]`, one `'ordering'`
constraint over their keys along axis `y` with gap 30. -/
def exRedrawOrdering : ReconState × RedrawOut :=
  redraw exCfg {} [exNodeLa, exNodeLb, exNodeLc] []
    [Constraint.ordering "y" 30 ["a", "b", "c"] exOrdKey]

/-- The circle-constraint scenario: 4 nodes, one `'circle'` constraint over
their keys with no explicit distance, baseLength 30. -/
def exRedrawCircle : ReconState × RedrawOut :=
  redraw exCfg {} [exNodeLa, exNodeLb, exNodeLc, exNodeLd] []
    [Constraint.circle ["a", "b", "c", "d"] none]

/-! ## Map and angle lemmas -/

@[simp] theorem mget_nil {α : Type} (k : String) : mget ([] : KMap α) k = none := rfl

@[simp] theorem mget_mput_self {α : Type} (m : KMap α) (k : String) (v : α) :
    mget (mput m k v) k = some v := by
  induction m with
  | nil => simp [mget, mput]
  | cons kv m ih =>
    by_cases hk : kv.1 = k
    · simp [mget, mput, hk]
    · simp [mget, mput, hk, ih]

theorem mget_mput_ne {α : Type} (m : KMap α) (k k' : String) (v : α) (h : k ≠ k') :
    mget (mput m k v) k' = mget m k' := by
  induction m with
  | nil => simp [mget, mput, h]
  | cons kv m ih =>
    by_cases hk : kv.1 = k
    · simp [mget, mput, hk, h, ih]
    · by_cases hk' : kv.1 = k'
      · simp [mget, mput, hk, hk', Ne.symm h]
      · simp [mget, mput, hk, hk', ih]

theorem mget_msweep {α : Type} (m : KMap α) (keep : List String) (k : String) :
    mget (msweep m keep) k = if k ∈ keep then mget m k else none := by
  induction m with
  | nil => simp [msweep, mget]
  | cons kv m ih =>
    by_cases hk : kv.1 = k
    · subst hk
      by_cases hkeep : kv.1 ∈ keep
      · simp [msweep, List.filter_cons, hkeep, mget, ih]
      · simp only [msweep, List.filter_cons] at *
        simp [hkeep, ih]
    · by_cases hkeep : kv.1 ∈ keep
      · simp only [msweep, List.filter_cons] at *
        simp [hkeep, mget, hk, ih]
      · simp only [msweep, List.filter_cons] at *
        simp [hkeep, mget, hk, ih]

theorem normalize_angle_eq_self (θ : ℝ) (h1 : -Real.pi < θ) (h2 : θ ≤ Real.pi) :
    normalize_angle θ = θ := by
  have hpi := Real.pi_pos
  have hc : ⌈(θ - Real.pi) / (2 * Real.pi)⌉ = 0 := by
    rw [Int.ceil_eq_zero_iff]
    constructor
    · rw [lt_div_iff₀ (by linarith : (0:ℝ) < 2 * Real.pi)]
      linarith
    · apply div_nonpos_of_nonpos_of_nonneg <;> linarith
  rw [normalize_angle, hc]
  simp

/-! ## Theorems: completion signalling (C3) -/

theorem endCount_engine_run (showSteps : Bool) (tl : ℕ) (ticks : List ℕ) :
    endCount (engine_run showSteps tl ticks) = 1 := by
  induction ticks with
  | nil => cases showSteps <;> simp [engine_run, endCount]
  | cons t ts ih =>
    by_cases hc : tl ≠ 0 ∧ t > tl
    · cases showSteps <;> simp [engine_run, tick_handler, hc, endCount]
    · cases showSteps <;>
        simp only [engine_run, tick_handler, hc, if_false, if_true, Bool.not_true,
          Bool.not_false, ite_false, ite_true] <;>
        simp only [endCount, List.count_append, List.count_cons, List.count_nil] at * <;>
        simp [ih]

/-- C3: for every redraw cycle, the `end` (layout finished) signal is
dispatched exactly once — whether the cycle ends by the unchanged-skip fast
path, by time-limit cancellation at an iteration tick, or by natural
convergence of the layout engine. -/
theorem C3_end_signal_exactly_once (skip showSteps : Bool) (tl : ℕ) (ticks : List ℕ) :
    endCount (run_cycle skip showSteps tl ticks) = 1 := by
  cases skip
  · simpa [run_cycle] using endCount_engine_run showSteps tl ticks
  · simp [run_cycle, endCount]

/-! ## Theorems: fixed-node resolution in `wrap_node` (C10) -/

/-- C10: on every redraw and every node record, `wrap_node` resolves the
fixed flag afresh: when the fixed accessor is unset or returns falsy the
wrapper's `fixed` is set to `false` (fixedness never persists stale) and the
position is untouched; when it returns truthy, `fixed` is set to `true` and
`x`/`y` are overwritten with the raw record's own `x`/`y` — the coordinate
object returned by the accessor is never read for the position (two accessors
agreeing on truthiness produce identical results). -/
theorem C10_wrap_node_fixed_resolution (fa : Option (NodeRecord → Option (ℚ × ℚ)))
    (m : KMap NodeWrapper) (nid : Nat) (v : NodeRecord) (i : Nat) :
    ((fa.elim none (fun f => f v)) = none →
      (wrap_node fa m nid v i).2.2.fixed = false ∧
      (wrap_node fa m nid v i).2.2.x = (mget m v.key).elim none NodeWrapper.x ∧
      (wrap_node fa m nid v i).2.2.y = (mget m v.key).elim none NodeWrapper.y) ∧
    (∀ c, (fa.elim none (fun f => f v)) = some c →
      (wrap_node fa m nid v i).2.2.fixed = true ∧
      (wrap_node fa m nid v i).2.2.x = v.x ∧
      (wrap_node fa m nid v i).2.2.y = v.y) ∧
    (∀ f g : NodeRecord → Option (ℚ × ℚ), (f v).isSome = (g v).isSome →
      wrap_node (some f) m nid v i = wrap_node (some g) m nid v i) := by
  refine ⟨?_, ?_, ?_⟩
  · intro hfalsy
    rcases fa with _ | f
    · cases hm : mget m v.key <;> simp [wrap_node, hm]
    · simp only [Option.elim] at hfalsy
      cases hm : mget m v.key <;> simp [wrap_node, hm, hfalsy]
  · intro c htruthy
    rcases fa with _ | f
    · simp at htruthy
    · simp only [Option.elim] at htruthy
      cases hm : mget m v.key <;> simp [wrap_node, hm, htruthy]
  · intro f g hiso
    cases hf : f v <;> cases hg : g v <;>
      simp [hf, hg] at hiso <;> simp [wrap_node, hf, hg]

/-- Witness for C10 at concrete inputs: an accessor returning a truthy
coordinate `(7, 9)` marks the node fixed and takes the position from the
record's own fields `(1, 2)`, not from the accessor's coordinate; a falsy
accessor resets `fixed`. -/
theorem C10_wrap_node_fixed_resolution_witness :
    ((wrap_node (some (fun _ => some (7, 9))) [] 0 { key := "A", x := some 1, y := some 2 } 0).2.2.fixed = true ∧
     (wrap_node (some (fun _ => some (7, 9))) [] 0 { key := "A", x := some 1, y := some 2 } 0).2.2.x = some 1 ∧
     (wrap_node (some (fun _ => some (7, 9))) [] 0 { key := "A", x := some 1, y := some 2 } 0).2.2.y = some 2) ∧
    (wrap_node (some (fun _ => none)) [] 0 { key := "A", x := some 1, y := some 2 } 0).2.2.fixed = false := by
  constructor
  · exact (C10_wrap_node_fixed_resolution (some (fun _ => some (7, 9))) [] 0
      { key := "A", x := some 1, y := some 2 } 0).2.1 (7, 9) rfl
  · exact ((C10_wrap_node_fixed_resolution (some (fun _ => none)) [] 0
      { key := "A", x := some 1, y := some 2 } 0).1 rfl).1

/-! ## Reconciliation lemmas -/

theorem wrap_node_orig (fa : Option (NodeRecord → Option (ℚ × ℚ))) (m : KMap NodeWrapper)
    (nid : Nat) (v : NodeRecord) (i : Nat) : (wrap_node fa m nid v i).2.2.orig = v := by
  rcases fa with _ | f
  · rcases hm : mget m v.key with _ | w <;> simp [wrap_node, hm]
  · rcases hm : mget m v.key with _ | w <;> rcases hf : f v with _ | c <;>
      simp [wrap_node, hm, hf]

theorem wrap_node_map_eq (fa : Option (NodeRecord → Option (ℚ × ℚ))) (m : KMap NodeWrapper)
    (nid : Nat) (v : NodeRecord) (i : Nat) :
    (wrap_node fa m nid v i).1 = mput m v.key (wrap_node fa m nid v i).2.2 := rfl

theorem wrap_node_id (fa : Option (NodeRecord → Option (ℚ × ℚ))) (m : KMap NodeWrapper)
    (nid : Nat) (v : NodeRecord) (i : Nat) (w0 : NodeWrapper) (hm : mget m v.key = some w0) :
    (wrap_node fa m nid v i).2.2.id = w0.id := by
  rcases fa with _ | f
  · simp [wrap_node, hm]
  · rcases hf : f v with _ | c <;> simp [wrap_node, hm, hf]

theorem wrap_node_xy (m : KMap NodeWrapper) (nid : Nat) (v : NodeRecord) (i : Nat)
    (w0 : NodeWrapper) (hm : mget m v.key = some w0) :
    (wrap_node none m nid v i).2.2.x = w0.x ∧ (wrap_node none m nid v i).2.2.y = w0.y := by
  simp [wrap_node, hm]

theorem wrap_nodes_keep (fa : Option (NodeRecord → Option (ℚ × ℚ))) (ns : List NodeRecord) :
    ∀ (m : KMap NodeWrapper) (nid i : Nat),
      (wrap_nodes fa m nid i ns).2.2.1 = ns.map (·.key) := by
  induction ns with
  | nil => intro m nid i; rfl
  | cons v vs ih => intro m nid i; simp [wrap_nodes, ih]

theorem wrap_nodes_orig (fa : Option (NodeRecord → Option (ℚ × ℚ))) (ns : List NodeRecord) :
    ∀ (m : KMap NodeWrapper) (nid i : Nat),
      (wrap_nodes fa m nid i ns).2.2.2.map (·.orig) = ns := by
  induction ns with
  | nil => intro m nid i; rfl
  | cons v vs ih => intro m nid i; simp [wrap_nodes, ih, wrap_node_orig]

theorem wrap_nodes_mget_notmem (fa : Option (NodeRecord → Option (ℚ × ℚ)))
    (ns : List NodeRecord) :
    ∀ (m : KMap NodeWrapper) (nid i : Nat) (k : String), k ∉ ns.map (·.key) →
      mget (wrap_nodes fa m nid i ns).1 k = mget m k := by
  induction ns with
  | nil => intro m nid i k _; rfl
  | cons v vs ih =>
    intro m nid i k hk
    simp only [List.map_cons, List.mem_cons] at hk
    push_neg at hk
    simp only [wrap_nodes]
    rw [ih _ _ _ _ hk.2, wrap_node_map_eq, mget_mput_ne _ _ _ _ (fun h => hk.1 h.symm)]

theorem wrap_nodes_mget_isSome_mono (fa : Option (NodeRecord → Option (ℚ × ℚ)))
    (ns : List NodeRecord) :
    ∀ (m : KMap NodeWrapper) (nid i : Nat) (k : String), (mget m k).isSome →
      (mget (wrap_nodes fa m nid i ns).1 k).isSome := by
  induction ns with
  | nil => intro m nid i k h; exact h
  | cons v vs ih =>
    intro m nid i k h
    simp only [wrap_nodes]
    apply ih
    rw [wrap_node_map_eq]
    by_cases hvk : v.key = k
    · subst hvk; simp
    · rwa [mget_mput_ne _ _ _ _ hvk]

theorem wrap_nodes_mget_isSome (fa : Option (NodeRecord → Option (ℚ × ℚ)))
    (ns : List NodeRecord) :
    ∀ (m : KMap NodeWrapper) (nid i : Nat) (k : String), k ∈ ns.map (·.key) →
      (mget (wrap_nodes fa m nid i ns).1 k).isSome := by
  induction ns with
  | nil => intro m nid i k h; simp at h
  | cons v vs ih =>
    intro m nid i k h
    simp only [List.map_cons, List.mem_cons] at h
    rcases h with h | h
    · subst h
      simp only [wrap_nodes]
      apply wrap_nodes_mget_isSome_mono
      rw [wrap_node_map_eq]
      simp
    · exact ih _ _ _ _ h

/-- Identity and position preservation through one `nodes.map(wrap_node)`
pass: a record whose key already has a wrapper gets the same wrapper object
back (same `id`), with `orig` refreshed; with no fixed accessor its `x`/`y`
are untouched. -/
theorem wrap_nodes_preserves (fa : Option (NodeRecord → Option (ℚ × ℚ)))
    (ns : List NodeRecord) :
    ∀ (m : KMap NodeWrapper) (nid i : Nat) (v : NodeRecord) (w0 : NodeWrapper),
      (ns.map (·.key)).Nodup → v ∈ ns → mget m v.key = some w0 →
      ∃ w', mget (wrap_nodes fa m nid i ns).1 v.key = some w' ∧ w'.id = w0.id ∧
        w'.orig = v ∧ (fa = none → w'.x = w0.x ∧ w'.y = w0.y) := by
  induction ns with
  | nil => intro m nid i v w0 _ hv _; simp at hv
  | cons u vs ih =>
    intro m nid i v w0 hnd hv hm
    simp only [List.map_cons, List.nodup_cons] at hnd
    rcases List.mem_cons.mp hv with hv | hv
    · subst hv
      refine ⟨(wrap_node fa m nid v i).2.2, ?_, ?_, wrap_node_orig fa m nid v i, ?_⟩
      · simp only [wrap_nodes]
        rw [wrap_nodes_mget_notmem fa vs _ _ _ _ hnd.1, wrap_node_map_eq]
        simp
      · exact wrap_node_id fa m nid v i w0 hm
      · intro hfa; subst hfa; exact wrap_node_xy m nid v i w0 hm
    · have hne : u.key ≠ v.key := by
        intro h
        exact hnd.1 (h ▸ List.mem_map_of_mem (·.key) hv)
      simp only [wrap_nodes]
      apply ih _ _ _ _ _ hnd.2 hv
      rw [wrap_node_map_eq, mget_mput_ne _ _ _ _ hne]
      exact hm

theorem wrap_edge_fields (nm : KMap NodeWrapper) (m : KMap EdgeWrapper) (nid : Nat)
    (e : EdgeRecord) :
    (wrap_edge nm m nid e).2.2.orig = e ∧
    (wrap_edge nm m nid e).2.2.source = mget nm e.sourcename ∧
    (wrap_edge nm m nid e).2.2.target = mget nm e.targetname := by
  rcases hm : mget m e.key with _ | w <;> simp [wrap_edge, hm]

theorem wrap_edge_map_eq (nm : KMap NodeWrapper) (m : KMap EdgeWrapper) (nid : Nat)
    (e : EdgeRecord) :
    (wrap_edge nm m nid e).1 = mput m e.key (wrap_edge nm m nid e).2.2 := rfl

theorem wrap_edges_mget_notmem (nm : KMap NodeWrapper) (es : List EdgeRecord) :
    ∀ (m : KMap EdgeWrapper) (nid : Nat) (k : String), k ∉ es.map (·.key) →
      mget (wrap_edges nm m nid es).1 k = mget m k := by
  induction es with
  | nil => intro m nid k _; rfl
  | cons e es ih =>
    intro m nid k hk
    simp only [List.map_cons, List.mem_cons] at hk
    push_neg at hk
    simp only [wrap_edges]
    rw [ih _ _ _ hk.2, wrap_edge_map_eq, mget_mput_ne _ _ _ _ (fun h => hk.1 h.symm)]

/-- The filtered `edges1`, reflected back onto the records: the surviving
`orig`s are exactly the edge records whose endpoint keys resolve in the node
map. -/
theorem wrap_edges_filter_orig (nm : KMap NodeWrapper) (es : List EdgeRecord) :
    ∀ (m : KMap EdgeWrapper) (nid : Nat),
      (((wrap_edges nm m nid es).2.2.2.filter
          (fun e => e.source.isSome && e.target.isSome)).map (·.orig)) =
        es.filter (fun e => (mget nm e.sourcename).isSome && (mget nm e.targetname).isSome) := by
  induction es with
  | nil => intro m nid; rfl
  | cons e es ih =>
    intro m nid
    have hf := wrap_edge_fields nm m nid e
    simp only [wrap_edges, List.filter_cons, hf.2.1, hf.2.2]
    by_cases hc : (mget nm e.sourcename).isSome && (mget nm e.targetname).isSome
    · simp only [hc, if_true, List.map_cons, hf.1]
      rw [ih]
    · simp only [hc, Bool.false_eq_true, if_false]
      rw [ih]

@[simp] theorem msweep_nil_keep {α : Type} (m : KMap α) : msweep m [] = [] := by
  simp [msweep]

theorem reconcile_nodes_mget (cfg : Config) (st : ReconState) (ns : List NodeRecord)
    (k : String) :
    mget (reconcile_nodes cfg st ns).1 k =
      if k ∈ ns.map (·.key) then
        mget (wrap_nodes cfg.nodeFixedAccessor st.nodes st.nextId 0 ns).1 k
      else none := by
  simp [reconcile_nodes, mget_msweep, wrap_nodes_keep]

theorem reconcile_nodes_isSome (cfg : Config) (st : ReconState) (ns : List NodeRecord)
    (k : String) :
    (mget (reconcile_nodes cfg st ns).1 k).isSome ↔ k ∈ ns.map (·.key) := by
  rw [reconcile_nodes_mget]
  by_cases hk : k ∈ ns.map (·.key)
  · simp [hk, wrap_nodes_mget_isSome cfg.nodeFixedAccessor ns st.nodes st.nextId 0 k hk]
  · simp [hk]

theorem reconcile_nodes_orig (cfg : Config) (st : ReconState) (ns : List NodeRecord) :
    (reconcile_nodes cfg st ns).2.2.map (·.orig) = ns := by
  simp [reconcile_nodes, wrap_nodes_orig]

theorem reconcile_edges_mget_notmem (nm2 : KMap NodeWrapper) (st : ReconState)
    (nid1 : Nat) (es : List EdgeRecord) (k : String) (hk : k ∉ es.map (·.key)) :
    mget (reconcile_edges nm2 st nid1 es).1 k = none := by
  simp only [reconcile_edges]
  rw [wrap_edges_mget_notmem nm2 es _ _ _ hk]
  simp

theorem reconcile_edges_orig (nm2 : KMap NodeWrapper) (st : ReconState) (nid1 : Nat)
    (es : List EdgeRecord) :
    (reconcile_edges nm2 st nid1 es).2.2.map (·.orig) =
      es.filter (fun e => (mget nm2 e.sourcename).isSome && (mget nm2 e.targetname).isSome) := by
  simp only [reconcile_edges]
  exact wrap_edges_filter_orig nm2 es _ _

/-- Through a reconciled node map, the `edges1` snapshot depends only on the
current node record keys. -/
theorem reconcile_edges_orig_keys (cfg : Config) (st st' : ReconState)
    (ns : List NodeRecord) (nid1 : Nat) (es : List EdgeRecord) :
    (reconcile_edges (reconcile_nodes cfg st ns).1 st' nid1 es).2.2.map (·.orig) =
      es.filter (fun e => decide (e.sourcename ∈ ns.map (·.key)) &&
        decide (e.targetname ∈ ns.map (·.key))) := by
  rw [reconcile_edges_orig]
  apply List.filter_congr
  intro e _
  have hs : (mget (reconcile_nodes cfg st ns).1 e.sourcename).isSome =
      decide (e.sourcename ∈ ns.map (·.key)) := by
    rw [Bool.eq_iff_iff]
    simp [reconcile_nodes_isSome]
  have ht : (mget (reconcile_nodes cfg st ns).1 e.targetname).isSome =
      decide (e.targetname ∈ ns.map (·.key)) := by
    rw [Bool.eq_iff_iff]
    simp [reconcile_nodes_isSome]
  rw [hs, ht]

theorem redraw_state_nodes (cfg : Config) (st : ReconState) (ns : List NodeRecord)
    (es : List EdgeRecord) (cons : List Constraint) :
    (redraw cfg st ns es cons).1.nodes = (reconcile_nodes cfg st ns).1 := rfl

theorem redraw_state_edges (cfg : Config) (st : ReconState) (ns : List NodeRecord)
    (es : List EdgeRecord) (cons : List Constraint) :
    (redraw cfg st ns es cons).1.edges =
      (reconcile_edges (reconcile_nodes cfg st ns).1 st
        (reconcile_nodes cfg st ns).2.1 es).1 := rfl

theorem redraw_snapshots (cfg : Config) (st : ReconState) (ns : List NodeRecord)
    (es : List EdgeRecord) (cons : List Constraint) (hlu : cfg.layoutUnchanged = false) :
    (redraw cfg st ns es cons).1.nodesSnapshot =
      some ((reconcile_nodes cfg st ns).2.2.map (·.orig)) ∧
    (redraw cfg st ns es cons).1.edgesSnapshot =
      some ((reconcile_edges (reconcile_nodes cfg st ns).1 st
        (reconcile_nodes cfg st ns).2.1 es).2.2.map (·.orig)) := by
  constructor <;> simp [redraw, hlu]

theorem redraw_skipLayout (cfg : Config) (st : ReconState) (ns : List NodeRecord)
    (es : List EdgeRecord) (cons : List Constraint) (hlu : cfg.layoutUnchanged = false) :
    (redraw cfg st ns es cons).2.skipLayout =
      (decide (st.nodesSnapshot = some ((reconcile_nodes cfg st ns).2.2.map (·.orig))) &&
       decide (st.edgesSnapshot = some ((reconcile_edges (reconcile_nodes cfg st ns).1 st
         (reconcile_nodes cfg st ns).2.1 es).2.2.map (·.orig)))) := by
  simp [redraw, hlu]

theorem redraw_engineStarted (cfg : Config) (st : ReconState) (ns : List NodeRecord)
    (es : List EdgeRecord) (cons : List Constraint) :
    (redraw cfg st ns es cons).2.engineStarted = !(redraw cfg st ns es cons).2.skipLayout := rfl

theorem engine_update_mget (f : String → Option (ℚ × ℚ)) (st : ReconState) (k : String) :
    mget (engine_update f st).nodes k =
      (mget st.nodes k).map (fun w =>
        match f k with
        | some p => { w with x := some p.1, y := some p.2 }
        | none => w) := by
  show mget (st.nodes.map _) k = _
  induction st.nodes with
  | nil => simp
  | cons kv l ih =>
    by_cases hk : kv.1 = k
    · subst hk
      rcases hfk : f kv.1 with _ | p <;> simp [mget, hfk]
    · rcases hfk : f kv.1 with _ | p <;>
        simpa [mget, hk, hfk] using ih

theorem engine_update_nodesSnapshot (f : String → Option (ℚ × ℚ)) (st : ReconState) :
    (engine_update f st).nodesSnapshot = st.nodesSnapshot := rfl

theorem engine_update_edgesSnapshot (f : String → Option (ℚ × ℚ)) (st : ReconState) :
    (engine_update f st).edgesSnapshot = st.edgesSnapshot := rfl

theorem engine_update_nextId (f : String → Option (ℚ × ℚ)) (st : ReconState) :
    (engine_update f st).nextId = st.nextId := rfl

/-! ## Theorems: reconciliation-map garbage collection (C8) -/

/-- C8: after any redraw, a key absent from that redraw's node record set has
no binding left in the persistent `_nodes` map, and a key absent from the edge
record set has no binding left in `_edges`. -/
theorem C8_absent_keys_swept (cfg : Config) (st : ReconState) (ns : List NodeRecord)
    (es : List EdgeRecord) (cons : List Constraint) (k : String) :
    (k ∉ ns.map (·.key) → mget (redraw cfg st ns es cons).1.nodes k = none) ∧
    (k ∉ es.map (·.key) → mget (redraw cfg st ns es cons).1.edges k = none) := by
  constructor
  · intro hk
    rw [redraw_state_nodes, reconcile_nodes_mget]
    simp [hk]
  · intro hk
    rw [redraw_state_edges]
    exact reconcile_edges_mget_notmem _ _ _ _ _ hk

/-- Witness for C8 at a concrete redraw: keys `"Z"`/`"zz"`, absent from the
record sets, have no bindings after the redraw. -/
theorem C8_absent_keys_swept_witness :
    mget (redraw {} {} [{ key := "A" }]
      [{ key := "e", sourcename := "A", targetname := "A" }] []).1.nodes "Z" = none ∧
    mget (redraw {} {} [{ key := "A" }]
      [{ key := "e", sourcename := "A", targetname := "A" }] []).1.edges "zz" = none := by
  constructor
  · exact (C8_absent_keys_swept {} {} [{ key := "A" }]
      [{ key := "e", sourcename := "A", targetname := "A" }] [] "Z").1 (by decide)
  · exact (C8_absent_keys_swept {} {} [{ key := "A" }]
      [{ key := "e", sourcename := "A", targetname := "A" }] [] "zz").2 (by decide)

/-! ## Theorems: wrapper identity across redraws (C1) -/

/-- C1 (evaluation of the code at the failing input): across two redraws with
byte-identical records, the node wrapper for key `"A"` keeps its object
identity and position fields, but the edge wrapper for key `"e1"` does not —
the sweep of `_edges` at lines 663-665 runs while `keep_edge` is still the
empty object (it is only populated by `wrap_edge` at line 666), so the
previous round's edge wrapper is deleted and a fresh object is allocated
despite the unchanged record. -/
theorem C1_edge_wrapper_not_preserved :
    ((mget exRedraw2.1.nodes "A").map (·.id) = (mget exRedraw1.1.nodes "A").map (·.id)) ∧
    ((mget exRedraw2.1.nodes "A").map (fun w => (w.x, w.y)) =
      (mget exRedraw1.1.nodes "A").map (fun w => (w.x, w.y))) ∧
    (mget exRedraw1.1.edges "e1").isSome ∧
    (mget exRedraw2.1.edges "e1").isSome ∧
    ((mget exRedraw2.1.edges "e1").map (·.id) ≠ (mget exRedraw1.1.edges "e1").map (·.id)) := by
  decide

/-! ## Theorems: unchanged-skip fast path (C4) -/

/-- C4: with `layoutUnchanged = false` and no fixed-position accessor, a
second redraw over byte-identical node and edge record sets finds the
serialized snapshots equal and takes the skip fast path: the layout engine's
`start` is not invoked, the completion signal is emitted (exactly the single
`end` event), and every node wrapper's position — including positions the
engine wrote between the cycles — is left unchanged. -/
theorem C4_unchanged_redraw_skips (cfg : Config) (st0 : ReconState)
    (ns : List NodeRecord) (es : List EdgeRecord) (cons cons' : List Constraint)
    (f : String → Option (ℚ × ℚ)) (showSteps : Bool) (tl : ℕ) (ticks : List ℕ)
    (hfa : cfg.nodeFixedAccessor = none) (hlu : cfg.layoutUnchanged = false)
    (hnd : (ns.map (·.key)).Nodup) :
    (redraw cfg (engine_update f (redraw cfg st0 ns es cons).1) ns es cons').2.skipLayout = true ∧
    (redraw cfg (engine_update f (redraw cfg st0 ns es cons).1) ns es cons').2.engineStarted = false ∧
    run_cycle (redraw cfg (engine_update f (redraw cfg st0 ns es cons).1) ns es
        cons').2.skipLayout showSteps tl ticks = [DriverEvent.endSignal] ∧
    (∀ k, (mget (redraw cfg (engine_update f (redraw cfg st0 ns es cons).1) ns es
          cons').1.nodes k).map (fun w => (w.x, w.y)) =
        (mget (engine_update f (redraw cfg st0 ns es cons).1).nodes k).map
          (fun w => (w.x, w.y))) := by
  have hst1 : (engine_update f (redraw cfg st0 ns es cons).1).nodesSnapshot = some ns := by
    rw [engine_update_nodesSnapshot, (redraw_snapshots cfg st0 ns es cons hlu).1,
      reconcile_nodes_orig]
  have hst2 : (engine_update f (redraw cfg st0 ns es cons).1).edgesSnapshot =
      some (es.filter (fun e => decide (e.sourcename ∈ ns.map (·.key)) &&
        decide (e.targetname ∈ ns.map (·.key)))) := by
    rw [engine_update_edgesSnapshot, (redraw_snapshots cfg st0 ns es cons hlu).2,
      reconcile_edges_orig_keys]
  have hskip : (redraw cfg (engine_update f (redraw cfg st0 ns es cons).1) ns es
      cons').2.skipLayout = true := by
    rw [redraw_skipLayout _ _ _ _ _ hlu, reconcile_nodes_orig, reconcile_edges_orig_keys,
      hst1, hst2]
    simp
  refine ⟨hskip, ?_, ?_, ?_⟩
  · rw [redraw_engineStarted, hskip]
    rfl
  · rw [hskip]
    rfl
  · intro k
    by_cases hk : k ∈ ns.map (·.key)
    · rcases List.mem_map.mp hk with ⟨v, hv, hvk⟩
      subst hvk
      have h1 : (mget (redraw cfg st0 ns es cons).1.nodes v.key).isSome := by
        rw [redraw_state_nodes]
        exact (reconcile_nodes_isSome cfg st0 ns v.key).mpr (List.mem_map_of_mem _ hv)
      rcases Option.isSome_iff_exists.mp h1 with ⟨w1, hw1⟩
      have h2 : mget (engine_update f (redraw cfg st0 ns es cons).1).nodes v.key =
          some (match f v.key with
                | some p => { w1 with x := some p.1, y := some p.2 }
                | none => w1) := by
        rw [engine_update_mget, hw1]
        rfl
      rcases wrap_nodes_preserves cfg.nodeFixedAccessor ns
          (engine_update f (redraw cfg st0 ns es cons).1).nodes
          (engine_update f (redraw cfg st0 ns es cons).1).nextId 0 v _ hnd hv h2 with
        ⟨w', hw', _, _, hxy⟩
      have hL : mget (redraw cfg (engine_update f (redraw cfg st0 ns es cons).1) ns es
          cons').1.nodes v.key = some w' := by
        rw [redraw_state_nodes, reconcile_nodes_mget]
        simp only [hk, if_true]
        exact hw'
      rw [hL, h2]
      rcases hxy hfa with ⟨hx, hy⟩
      simp [hx, hy]
    · have hL : mget (redraw cfg (engine_update f (redraw cfg st0 ns es cons).1) ns es
          cons').1.nodes k = none := by
        rw [redraw_state_nodes, reconcile_nodes_mget]
        simp [hk]
      have hR : mget (engine_update f (redraw cfg st0 ns es cons).1).nodes k = none := by
        rw [engine_update_mget]
        have hnone : mget (redraw cfg st0 ns es cons).1.nodes k = none := by
          rw [redraw_state_nodes, reconcile_nodes_mget]
          simp [hk]
        rw [hnone]
        rfl
      rw [hL, hR]

/-- Witness for C4 at a concrete two-cycle run (engine writes position
`(3, 4)` between cycles): the second redraw skips, does not start the engine,
and node `"A"`'s position survives untouched. -/
theorem C4_unchanged_redraw_skips_witness :
    (redraw exCfg (engine_update (fun _ => some (3, 4))
      (redraw exCfg {} [exNodeA, exNodeB] [exEdgeAB1] []).1)
      [exNodeA, exNodeB] [exEdgeAB1] []).2.skipLayout = true ∧
    (redraw exCfg (engine_update (fun _ => some (3, 4))
      (redraw exCfg {} [exNodeA, exNodeB] [exEdgeAB1] []).1)
      [exNodeA, exNodeB] [exEdgeAB1] []).2.engineStarted = false ∧
    (mget (redraw exCfg (engine_update (fun _ => some (3, 4))
        (redraw exCfg {} [exNodeA, exNodeB] [exEdgeAB1] []).1)
        [exNodeA, exNodeB] [exEdgeAB1] []).1.nodes "A").map (fun w => (w.x, w.y)) =
      (mget (engine_update (fun _ => some (3, 4))
        (redraw exCfg {} [exNodeA, exNodeB] [exEdgeAB1] []).1).nodes "A").map
        (fun w => (w.x, w.y)) := by
  have h := C4_unchanged_redraw_skips exCfg {} [exNodeA, exNodeB] [exEdgeAB1] [] []
    (fun _ => some (3, 4)) true 0 [] rfl rfl (by decide)
  exact ⟨h.1, h.2.1, h.2.2.2 "A"⟩

/-! ## Theorems: parallel-edge indexing (C5) -/

theorem assign_parallel_go_eq (es : List EdgeWrapper) :
    ∀ (cnt : ℕ × ℕ → ℕ) (pre : List EdgeWrapper),
      (∀ k, cnt k = (pre.filter (fun e' => decide (pairKey e' = k))).length) →
      assign_parallel_go cnt es = parallel_claim pre es := by
  induction es with
  | nil => intro cnt pre _; rfl
  | cons e es ih =>
    intro cnt pre h
    simp only [assign_parallel_go, parallel_claim]
    refine congrArg₂ List.cons ?_ ?_
    · rw [h (pairKey e)]
      rfl
    · apply ih
      intro k
      by_cases hk : k = pairKey e
      · subst hk
        simp [h, List.filter_append, countPair]
      · simp [hk, h, List.filter_append, Ne.symm hk]

/-- C5: with parallel-edge offsetting enabled, each edge's `parallel` equals
the running count, in encounter order, of previously seen edges between the
same unordered endpoint pair (so N parallel edges receive exactly
`{0,…,N−1}`); the pair key is symmetric in source and target; and the
scenario `A→B`, `A→B`, `B→C` yields parallel values `[0, 1, 0]`. -/
theorem C5_parallel_edge_indexing :
    (∀ es : List EdgeWrapper, assign_parallel es = parallel_claim [] es) ∧
    (∀ (e : EdgeWrapper) (s t : Option NodeWrapper),
      pairKey { e with source := s, target := t } =
      pairKey { e with source := t, target := s }) ∧
    exRedrawParallel.2.edges1.map (·.parallel) = [some 0, some 1, some 0] := by
  refine ⟨?_, ?_, ?_⟩
  · intro es
    apply assign_parallel_go_eq
    intro k
    rfl
  · intro e s t
    simp [pairKey, min_comm, max_comm]
  · decide

/-! ## Theorems: ordering-constraint reduction (C6) -/

theorem gap_chain_length (axis : String) (g : ℚ) :
    ∀ l, (gap_chain axis g l).length = l.length - 1
  | [] => rfl
  | [_] => rfl
  | _ :: b :: rest => by
    have ih := gap_chain_length axis g (b :: rest)
    simp only [gap_chain, List.length_cons, ih]
    omega

theorem gap_chain_zip (axis : String) (g : ℚ) :
    ∀ l, gap_chain axis g l =
      (l.zip l.tail).map (fun p => XConstraint.gap axis p.1.index p.2.index g)
  | [] => rfl
  | [_] => rfl
  | a :: b :: rest => by
    have ih := gap_chain_zip axis g (b :: rest)
    simp only [gap_chain, List.tail_cons, List.zip_cons_cons, List.map_cons] at *
    rw [ih]

theorem gap_chain_not_ordering (axis : String) (g : ℚ) (l : List NodeWrapper) :
    ∀ x ∈ gap_chain axis g l, isOrdering x = false := by
  intro x hx
  rw [gap_chain_zip] at hx
  rcases List.mem_map.mp hx with ⟨p, _, hp⟩
  rw [← hp]
  rfl

theorem ordering_stage_removes_orderings (nm : KMap NodeWrapper) (cs : List XConstraint) :
    (ordering_stage nm cs).filter (fun c => isOrdering c) = [] := by
  rw [List.filter_eq_nil_iff]
  intro x hx
  simp only [ordering_stage, List.mem_append] at hx
  rcases hx with hx | hx
  · rcases List.mem_filter.mp hx with ⟨_, hp⟩
    simp at hp
    simp [hp]
  · rcases List.mem_flatten.mp hx with ⟨l, hl, hxl⟩
    rcases List.mem_map.mp hl with ⟨c, _, hc⟩
    subst hc
    rcases c with _ | _ | ⟨axis, g, ks, f⟩ | _
    · simp at hxl
    · simp at hxl
    · simp [gap_chain_not_ordering _ _ _ _ hxl]
    · simp at hxl

/-- C6: an `'ordering'` constraint is translated by sorting its named nodes
by the supplied ordering key and emitting one `{left, right, axis, gap}`
constraint per adjacent sorted pair — exactly n−1 constraints, each over
adjacent indices only — while the ordering constraint itself is removed from
the list passed to the engine; over `[a, b, c]` (indices 0, 1, 2, keys
sorted a < b < c) this yields exactly `(0,1)` and `(1,2)`, never `(0,2)`. -/
theorem C6_ordering_constraint_reduction :
    (∀ (axis : String) (g : ℚ) (l : List NodeWrapper),
      (gap_chain axis g l).length = l.length - 1) ∧
    (∀ (axis : String) (g : ℚ) (l : List NodeWrapper),
      gap_chain axis g l =
        (l.zip l.tail).map (fun p => XConstraint.gap axis p.1.index p.2.index g)) ∧
    (∀ (nm : KMap NodeWrapper) (cs : List XConstraint),
      (ordering_stage nm cs).filter (fun c => isOrdering c) = []) ∧
    exRedrawOrdering.2.constraints =
      [XConstraint.gap "y" 0 1 30, XConstraint.gap "y" 1 2 30] := by
  exact ⟨gap_chain_length, gap_chain_zip, ordering_stage_removes_orderings, rfl⟩

/-! ## Theorems: circle-constraint translation (C7) -/

theorem sin_pi_div_four_pos : 0 < Real.sin (Real.pi / 4) := by
  rw [Real.sin_pi_div_four]
  positivity

theorem circleR_default_eq (bl : ℚ) (n : ℕ) :
    circleR none bl n = ((bl * 4 : ℚ) : ℝ) / (2 * Real.sin (Real.pi / n)) ∧
    circleR (some 0) bl n = ((bl * 4 : ℚ) : ℝ) / (2 * Real.sin (Real.pi / n)) := by
  constructor <;> simp [circleR]

/-- C7 counterexample: the claim reads the radius numerator as "the
constraint's distance, or 4×baseLength when absent", but the code's
`c.distance || baseLength*4` also falls back to the default when the distance
is present and equal to 0 (falsy).  At distance 0, baseLength 30, 4 nodes,
the claim's formula gives radius 0 while the code gives a nonzero radius. -/
theorem C7_radius_counterexample :
    circleR_claim (some 0) 30 4 = 0 ∧
    circleR (some 0) 30 4 ≠ 0 ∧
    circleR (some 0) 30 4 ≠ circleR_claim (some 0) 30 4 := by
  have h0 : circleR_claim (some 0) 30 4 = 0 := by
    simp [circleR_claim]
  have h1 : circleR (some 0) 30 4 ≠ 0 := by
    rw [(circleR_default_eq 30 4).2]
    have h4 : ((4 : ℕ) : ℝ) = (4 : ℝ) := by norm_num
    rw [h4]
    apply div_ne_zero
    · norm_num
    · have := sin_pi_div_four_pos
      positivity
  exact ⟨h0, h1, fun hc => h1 (hc.trans h0)⟩

theorem circle_wheels_singleton (bl : ℚ) (nodes1 : List NodeWrapper)
    (nm : KMap NodeWrapper) (ks : List ℕ) (d : Option ℚ) :
    (circle_wheels bl nodes1 nm [XConstraint.circle ks d]).length = ks.length := by
  simp [circle_wheels, wheel_edges, isCircle, Function.comp]

theorem circleR_thirty_four : circleR none 30 4 = 60 * Real.sqrt 2 := by
  have h4 : ((4 : ℕ) : ℝ) = (4 : ℝ) := by norm_num
  have hsq : Real.sqrt 2 ≠ 0 := by
    have : (0:ℝ) < Real.sqrt 2 := Real.sqrt_pos.mpr (by norm_num)
    linarith
  rw [(circleR_default_eq 30 4).1, h4, Real.sin_pi_div_four]
  rw [div_eq_iff (by
    have : (0:ℝ) < Real.sqrt 2 := Real.sqrt_pos.mpr (by norm_num)
    positivity)]
  have h2 : Real.sqrt 2 * Real.sqrt 2 = 2 := Real.mul_self_sqrt (by norm_num)
  push_cast
  ring_nf
  nlinarith [h2]

/-- C7 (amended): a circle constraint over n nodes is translated with ring
radius `R = (distance, when present and nonzero, otherwise 4×baseLength) /
(2·sin(π/n))`; the constraint is removed from the constraint list handed to
the engine (zero solver constraints for the ring) and is instead realized as
exactly n synthetic wheel links; for 4 nodes, baseLength 30 and default
distance, `R = 120 / (2·sin(π/4)) = 60·√2 ≈ 84.85`. -/
theorem C7_circle_constraint_translation :
    (∀ (bl : ℚ) (n : ℕ),
      circleR none bl n = ((bl * 4 : ℚ) : ℝ) / (2 * Real.sin (Real.pi / n)) ∧
      circleR (some 0) bl n = ((bl * 4 : ℚ) : ℝ) / (2 * Real.sin (Real.pi / n))) ∧
    (∀ (x bl : ℚ) (n : ℕ), x ≠ 0 →
      circleR (some x) bl n = (x : ℝ) / (2 * Real.sin (Real.pi / n))) ∧
    (∀ (namef : ℕ → String) (indices : List ℕ) (r : ℝ),
      (wheel_edges namef indices r).length = indices.length) ∧
    (∀ cs : List XConstraint, (drop_circles cs).filter (fun c => isCircle c) = []) ∧
    exRedrawCircle.2.constraints = [] ∧
    (circle_wheels 30 exRedrawCircle.2.nodes1 exRedrawCircle.1.nodes
      ([Constraint.circle ["a", "b", "c", "d"] none].map
        (translate_constraint exRedrawCircle.1.nodes))).length = 4 ∧
    circleR none 30 4 = 60 * Real.sqrt 2 ∧
    |circleR none 30 4 - 84.85| < 1 / 100 := by
  refine ⟨circleR_default_eq, ?_, ?_, ?_, rfl, ?_, circleR_thirty_four, ?_⟩
  · intro x bl n hx
    simp [circleR, hx]
  · intro namef indices r
    simp [wheel_edges]
  · intro cs
    rw [List.filter_eq_nil_iff]
    intro x hx
    rcases List.mem_filter.mp hx with ⟨_, hp⟩
    simp at hp
    simp [hp]
  · have htr : ([Constraint.circle ["a", "b", "c", "d"] none].map
        (translate_constraint exRedrawCircle.1.nodes)) =
        [XConstraint.circle [0, 1, 2, 3] none] := rfl
    rw [htr, circle_wheels_singleton]
    rfl
  · rw [circleR_thirty_four]
    have h2 : Real.sqrt 2 * Real.sqrt 2 = 2 := Real.mul_self_sqrt (by norm_num)
    have h3 : (0:ℝ) ≤ Real.sqrt 2 := Real.sqrt_nonneg 2
    rw [abs_lt]
    constructor <;> nlinarith [h2, h3]

/-- Witness for C7 at concrete inputs: a present nonzero distance 7 is used
as the numerator. -/
theorem C7_circle_constraint_translation_witness :
    circleR (some 7) 30 4 = ((7 : ℚ) : ℝ) / (2 * Real.sin (Real.pi / (4 : ℕ))) ∧
    circleR none 30 4 = 60 * Real.sqrt 2 := by
  exact ⟨C7_circle_constraint_translation.2.1 7 30 4 (by norm_num),
    C7_circle_constraint_translation.2.2.2.2.2.2.1⟩

/-! ## Theorems: port placement (C2, C9) -/

theorem compute_vec_theta (n : PNode) (p : Port) : (compute_vec n p).theta = p.theta := by
  rcases p with ⟨pid, th, bnds, ho, eds, vf⟩
  simp only [compute_vec]
  cases ho
  · rfl
  · rcases bnds with _ | ab <;> rfl

theorem compute_vec_bounds_of_not_orig (n : PNode) (p : Port) (h : p.hasOrig = false) :
    (compute_vec n p).bounds = p.bounds := by
  rcases p with ⟨pid, th, bnds, ho, eds, vf⟩
  simp only at h
  subst h
  rfl

theorem partition_ports_outside (ps : List Port) (q : Port)
    (hq : q ∈ (partition_ports ps).2.1) :
    ∃ th a b, q.theta = some th ∧ q.bounds = some (a, b) ∧ ¬ between_angles th a b := by
  induction ps with
  | nil => simp [partition_ports] at hq
  | cons p ps ih =>
    rcases hth : p.theta with _ | th
    · rw [show (partition_ports (p :: ps)).2.1 = (partition_ports ps).2.1 by
        simp only [partition_ports, hth]] at hq
      exact ih hq
    · rcases hb : p.bounds with _ | ab
      · rw [show (partition_ports (p :: ps)).2.1 = (partition_ports ps).2.1 by
          simp only [partition_ports, hth, hb]] at hq
        exact ih hq
      · by_cases hbet : between_angles th ab.1 ab.2
        · rw [show (partition_ports (p :: ps)).2.1 = (partition_ports ps).2.1 by
            simp only [partition_ports, hth, hb, hbet, not_true, if_false]] at hq
          exact ih hq
        · rw [show (partition_ports (p :: ps)).2.1 = p :: (partition_ports ps).2.1 by
            simp only [partition_ports, hth, hb, hbet, not_false_iff, if_true]] at hq
          rcases List.mem_cons.mp hq with hq | hq
          · subst hq
            exact ⟨th, ab.1, ab.2, hth, by rw [hb], hbet⟩
          · exact ih hq

theorem mem_ins_theta (a x : Port) (l : List Port) :
    x ∈ ins_theta a l ↔ x = a ∨ x ∈ l := by
  induction l with
  | nil => simp [ins_theta]
  | cons b l ih =>
    simp only [ins_theta]
    by_cases hc : a.theta.getD 0 ≤ b.theta.getD 0
    · simp [hc]
    · simp only [hc, if_false, List.mem_cons, ih]
      tauto

theorem mem_sort_theta (x : Port) (l : List Port) : x ∈ sort_theta l ↔ x ∈ l := by
  induction l with
  | nil => simp [sort_theta]
  | cons a l ih => simp [sort_theta, mem_ins_theta, ih]

/-- C9: every port classified `outside` (theta defined but not between its
bounds) has its theta replaced by whichever of `bounds[0]`/`bounds[1]` is
angularly closer (comparison by absolute normalized angle difference) and is
then treated as `inside`. -/
theorem C9_outside_port_clipped_to_closer_bound (n : PNode) (nports : List Port)
    (rand : ℕ → ℝ) (q : Port) (th a b : ℝ)
    (hq : q ∈ (partition_ports (nports.map (compute_vec n))).2.1)
    (hth : q.theta = some th) (hb : q.bounds = some (a, b)) :
    ¬ between_angles th a b ∧
    { q with theta := some (clip_angle th a b) } ∈ (place_node_ports n nports rand).1 ∧
    clip_angle th a b =
      (if |normalize_angle (th - a)| < |normalize_angle (th - b)| then a else b) := by
  obtain ⟨th', a', b', hth', hb', hnb⟩ := partition_ports_outside _ q hq
  have hth2 : th' = th := by rw [hth] at hth'; exact (Option.some.injEq _ _).mp hth'.symm
  have hab : a' = a ∧ b' = b := by
    rw [hb] at hb'
    have := (Option.some.injEq _ _).mp hb'.symm
    exact ⟨congrArg Prod.fst this, congrArg Prod.snd this⟩
  subst hth2
  rcases hab with ⟨ha2, hb2⟩
  subst ha2
  subst hb2
  refine ⟨hnb, ?_, rfl⟩
  simp only [place_node_ports]
  rw [mem_sort_theta]
  unfold clip_outside
  apply List.mem_append_right
  apply List.mem_map.mpr
  refine ⟨q, hq, ?_⟩
  rw [hth, hb]
  rfl

/-- Witness for C9: a port with bounds `[0, π/2]` and tentative theta `π`
(outside the bounds) is clipped to `π/2` — the angularly closer bound — and
lands in the `inside` group. -/
theorem C9_outside_port_clipped_to_closer_bound_witness :
    clip_angle Real.pi 0 (Real.pi / 2) = Real.pi / 2 ∧
    { pid := 0, theta := some (Real.pi / 2), bounds := some (0, Real.pi / 2),
      hasOrig := false, edges := [], vecField := some (VecVal.fromTheta Real.pi) } ∈
      (place_node_ports exPNodeN [exPortQ] (fun _ => 0)).1 := by
  have hpi := Real.pi_pos
  have hn1 : normalize_angle Real.pi = Real.pi :=
    normalize_angle_eq_self Real.pi (by linarith) le_rfl
  have hn2 : normalize_angle (Real.pi / 2) = Real.pi / 2 :=
    normalize_angle_eq_self (Real.pi / 2) (by linarith) (by linarith)
  have hnb : ¬ between_angles Real.pi 0 (Real.pi / 2) := by
    rw [between_angles, sub_zero, sub_zero, hn1, hn2]
    intro hcon
    linarith [hcon.2]
  have hclip : clip_angle Real.pi 0 (Real.pi / 2) = Real.pi / 2 := by
    rw [clip_angle, sub_zero, show Real.pi - Real.pi / 2 = Real.pi / 2 by ring, hn1, hn2,
      abs_of_pos hpi, abs_of_pos (by linarith : (0:ℝ) < Real.pi / 2)]
    rw [if_neg (by linarith)]
  have hq1 : [exPortQ].map (compute_vec exPNodeN) =
      [{ exPortQ with vecField := some (VecVal.fromTheta Real.pi) }] := by
    simp [compute_vec, exPortQ, Real.pi_ne_zero]
  have hmem : { exPortQ with vecField := some (VecVal.fromTheta Real.pi) } ∈
      (partition_ports ([exPortQ].map (compute_vec exPNodeN))).2.1 := by
    rw [hq1]
    have : (partition_ports [{ exPortQ with vecField := some (VecVal.fromTheta Real.pi) }]).2.1 =
        [{ exPortQ with vecField := some (VecVal.fromTheta Real.pi) }] := by
      simp only [partition_ports, exPortQ]
      rw [if_pos hnb]
    rw [this]
    exact List.mem_singleton.mpr rfl
  have h := C9_outside_port_clipped_to_closer_bound exPNodeN [exPortQ] (fun _ => 0)
    { exPortQ with vecField := some (VecVal.fromTheta Real.pi) } Real.pi 0 (Real.pi / 2)
    hmem rfl rfl
  refine ⟨hclip, ?_⟩
  have h2 := h.2.1
  rw [hclip] at h2
  exact h2

/-- C2 (evaluation of the code at the failing input): for a port with one
incident edge from its node `n` at (0,0) toward (1,0) and no preset theta,
the code computes the non-degenerate average direction `(1, 0)` — but only
stores it in `p.vec` and never derives `theta` from it (the `angle` helper at
lines 41-44 references out-of-scope variables and is never called): the port
is classified `unplaced` rather than `inside`, and its final angle comes from
the random placement, contradicting the claim that the average's angle
becomes the port's tentative theta. -/
theorem C2_theta_never_derived_from_edge_average (rand : ℕ → ℝ) :
    (compute_vec exPNodeN exPortP).vecField = some (VecVal.avg 1 0) ∧
    (compute_vec exPNodeN exPortP).theta = none ∧
    partition_ports ([exPortP].map (compute_vec exPNodeN)) =
      ([], [], [compute_vec exPNodeN exPortP]) ∧
    (place_node_ports exPNodeN [exPortP] rand).1 = [] := by
  have hvec : vec exPNodeN ⟨exPNodeN, exPNodeM⟩ = (1, 0) := by
    simp [vec, exPNodeN, exPNodeM, normv]
  have havg : (compute_vec exPNodeN exPortP).vecField = some (VecVal.avg 1 0) := by
    simp [compute_vec, exPortP, hvec]
  have hth : (compute_vec exPNodeN exPortP).theta = none := by
    rw [compute_vec_theta]
    rfl
  have hpart : partition_ports ([exPortP].map (compute_vec exPNodeN)) =
      ([], [], [compute_vec exPNodeN exPortP]) := by
    have : (partition_ports [compute_vec exPNodeN exPortP]) =
        ([], [], [compute_vec exPNodeN exPortP]) := by
      simp only [partition_ports, hth]
    simpa using this
  refine ⟨havg, hth, hpart, ?_⟩
  simp only [place_node_ports]
  rw [hpart]
  rfl

end DCGraph
